import Mathlib

/-!
Verification of the proptest-recurse crate (src/lib.rs, src/recursive.rs).

The development shallowly embeds the two components of the crate:

* `StrategySet` (src/lib.rs, lines 122-143): a persistent, type-keyed
  registry of type-erased strategies.  Rust `TypeId` keys are modelled as
  naturals; the type-erased `Arc<dyn Any + Send + Sync>` entry is modelled
  by `Dyn`, a payload tagged with the runtime type id of the value it
  erases, so that the checked downcast in `get` can be represented.
  The fallible downcast-and-unwrap is modelled with `Option` (a `none`
  result stands for the panic branch of `unwrap`).  Since `get`'s builder
  argument is a side-effecting `FnOnce`, the embedding returns a
  `GetResult` record carrying the updated registry, the returned strategy
  and the number of builder invocations performed by the call.

* `Recursive` (src/recursive.rs): the bounded-recursion strategy.  Its
  `new_tree` method first computes a vector of branch probabilities with
  saturating `u64` arithmetic and `f64` division, then folds a weighted
  choice between the current approximation and one application of the
  user's recursion step around it.  Strategies built by this loop are
  modelled syntactically by `Strat`; the opaque recursion-step function is
  the constructor `Strat.recurseApp` (one application of the step around
  the inner strategy), and the values a strategy can produce are given by
  the inductive sampling relation `samples`, in which a value produced by
  one application of the step may wrap any finite collection of samples of
  the inner strategy, which keeps the step function's shape arbitrary.
  The `f64` quantities are modelled exactly: an ideal probability is an
  unreduced fraction of naturals, `+inf` or `NaN` (`FProb`); division by
  zero yields `+inf`/`NaN` and `f64::min` with a `NaN` or `+inf` receiver
  returns its argument, exactly as in IEEE-754 Rust.  Rounding of finite
  `f64` quotients is idealised to exact rationals: every fact proved here
  (zero-ness, clamping below 9/10, positivity of the complementary weight)
  is invariant under that idealisation.
-/

/-- A type-erased registry entry: the payload together with the runtime
type id of the value erased into the `Arc<dyn Any>` (src/lib.rs line 124). -/
structure Dyn (α : Type) where
  tid : Nat
  val : α
deriving DecidableEq, Repr

/-- The registry of src/lib.rs lines 122-125: a persistent map from
`TypeId` to a type-erased strategy, modelled as an association list whose
visible contents are given by `StrategySet.lookup` (first match wins). -/
structure StrategySet (α : Type) where
  inner : List (Nat × Dyn α)
deriving DecidableEq, Repr

/-- Lookup in the association list backing a registry: the first entry
with the requested key, as in the `im::HashMap` lookup. -/
def lookupL {α : Type} : List (Nat × Dyn α) → Nat → Option (Dyn α)
  | [], _ => none
  | e :: es, k => if e.1 = k then some e.2 else lookupL es k

/-- Visible contents of a registry at a key. -/
def StrategySet.lookup {α : Type} (s : StrategySet α) (k : Nat) : Option (Dyn α) :=
  lookupL s.inner k

/-- The `Clone` implementation derived for `StrategySet` (src/lib.rs line
122): structural sharing of the persistent map, an identity on the logical
value. -/
def StrategySet.clone {α : Type} (s : StrategySet α) : StrategySet α := s

/-- The `im::HashMap::update` operation used at src/lib.rs line 185 and the
`entry(..).or_insert_with(..)` insertion at lines 136-138: produce a new
map in which key `k` is bound to `d` and every other key is unchanged.
Prepending the new binding realises exactly these observations under
`StrategySet.lookup`. -/
def StrategySet.update {α : Type} (s : StrategySet α) (k : Nat) (d : Dyn α) : StrategySet α :=
  ⟨(k, d) :: s.inner⟩

/-- Result of one `StrategySet::get` call: the caller's registry after the
call, the strategy handed back (`none` models the panic branch of the
`unwrap` on the checked downcast), and the number of times the call
invoked the builder closure. -/
structure GetResult (α : Type) where
  set : StrategySet α
  out : Option α
  calls : Nat
deriving Repr

/-- StrategySet::get (src/lib.rs lines 130-142).  The builder `f` receives
a clone of the current registry (`let mut this = self.clone()`), may
mutate that snapshot and returns a strategy; the snapshot's final state is
dropped when the builder returns.  If an entry for the requested type id
`T` already exists the builder is not invoked and the stored entry is
downcast and returned; otherwise the builder runs once, its result is
stored in the caller's registry under `T` (with the erased type id `T`,
as guaranteed by `Arc::new(f(&mut this))` at line 138) and returned. -/
def StrategySet.get {α : Type} (s : StrategySet α) (T : Nat)
    (f : StrategySet α → StrategySet α × α) : GetResult α :=
  match StrategySet.lookup s T with
  | some d => ⟨s, if d.tid = T then some d.val else none, 0⟩
  | none =>
      let v := (f (StrategySet.clone s)).2
      ⟨StrategySet.update s T ⟨T, v⟩, some v, 1⟩

/-- Type-safety invariant maintained by the Rust type system: every entry
erased into the registry under key `k` really erases a strategy for the
type whose id is `k`. -/
def StrategySet.WellTyped {α : Type} (s : StrategySet α) : Prop :=
  ∀ e ∈ s.inner, e.2.tid = e.1

theorem lookupL_wellTyped {α : Type} :
    ∀ (l : List (Nat × Dyn α)), (∀ e ∈ l, e.2.tid = e.1) →
      ∀ {k : Nat} {d : Dyn α}, lookupL l k = some d → d.tid = k
  | [], _, k, d, h => by simp [lookupL] at h
  | e :: es, hl, k, d, h => by
      by_cases hk : e.1 = k
      · have hd : e.2 = d := by simpa [lookupL, hk] using h
        have h1 := hl e (List.mem_cons_self e es)
        rw [hd] at h1
        rw [h1, hk]
      · have h2 : lookupL es k = some d := by simpa [lookupL, hk] using h
        exact lookupL_wellTyped es (fun x hx => hl x (List.mem_cons_of_mem e hx)) h2

theorem lookup_wellTyped {α : Type} {s : StrategySet α} (hs : s.WellTyped)
    {k : Nat} {d : Dyn α} (h : s.lookup k = some d) : d.tid = k :=
  lookupL_wellTyped s.inner hs h

/-- Syntax of the strategies built by Recursive::new_tree
(src/recursive.rs lines 62-89).  `base` is the wrapped base strategy,
`recurseApp s` is one application of the user's recursion-step function to
the inner strategy `s` (line 74), and `oneof wLeaf wBranch nonrec rec` is
the weighted choice built by the prop_oneof at lines 81-84, with the
non-recursive alternative first as in the source. -/
inductive Strat where
  | base : Strat
  | recurseApp : Strat → Strat
  | oneof : Nat → Nat → Strat → Strat → Strat
deriving DecidableEq, Repr

/-- Values a strategy can produce.  A `leaf n` is any value of the base
strategy (tagged by an arbitrary natural so the base strategy may produce
many values); a `node vs` is the value built by one application of the
recursion-step function, wrapping the finitely many samples `vs` it drew
from the inner strategy (possibly none, so the step function's own shape
stays arbitrary). -/
inductive Val where
  | leaf : Nat → Val
  | node : List Val → Val

/-- The sampling relation: which values a syntactic strategy can yield.
A weighted alternative is selectable exactly when its weight is nonzero,
matching the TupleUnion semantics of the prop_oneof at src/recursive.rs
lines 81-84. -/
inductive samples : Strat → Val → Prop
  | base : ∀ n, samples Strat.base (Val.leaf n)
  | step : ∀ s vs, (∀ v ∈ vs, samples s v) → samples (Strat.recurseApp s) (Val.node vs)
  | left : ∀ w1 w2 s1 s2 v, w1 ≠ 0 → samples s1 v → samples (Strat.oneof w1 w2 s1 s2) v
  | right : ∀ w1 w2 s1 s2 v, w2 ≠ 0 → samples s2 v → samples (Strat.oneof w1 w2 s1 s2) v

mutual

/-- Recursive-construction depth of a sampled value: the number of nested
applications of the recursion-step function around base values. -/
def vdepth : Val → Nat
  | Val.leaf _ => 0
  | Val.node vs => vdepthList vs + 1

/-- Largest recursive-construction depth among a list of values. -/
def vdepthList : List Val → Nat
  | [] => 0
  | v :: vs => max (vdepth v) (vdepthList vs)

end

/-- Number of recursion-step layers in a built strategy along its deepest
chain of `recurseApp` applications. -/
def layerDepth : Strat → Nat
  | Strat.base => 0
  | Strat.recurseApp s => layerDepth s + 1
  | Strat.oneof _ _ a b => max (layerDepth a) (layerDepth b)

/-- Number of invocations of the recursion-step function recorded in a
built strategy. -/
def countRecurse : Strat → Nat
  | Strat.base => 0
  | Strat.recurseApp s => countRecurse s + 1
  | Strat.oneof _ _ a b => countRecurse a + countRecurse b

/-- An `f64` branch probability as computed at src/recursive.rs line 68:
either an exact nonnegative quotient kept as an unreduced fraction
(numerator, denominator), positive infinity (division of a positive
numerator by zero) or NaN (zero divided by zero). -/
inductive FProb where
  | fin : Nat → Nat → FProb
  | posInf : FProb
  | nan : FProb
deriving DecidableEq, Repr

/-- The division `f64::from(desired_size) / k2 as f64` of src/recursive.rs
line 68, with the IEEE-754 rules for a zero divisor; finite quotients are
kept exact. -/
def fdiv (S k : Nat) : FProb :=
  if k = 0 then (if S = 0 then FProb.nan else FProb.posInf) else FProb.fin S k

/-- The clamp `branch_probability.min(0.9)` of src/recursive.rs line 79:
Rust's `f64::min` returns the other operand when the receiver is NaN, and
`min(+inf, c) = c`.  Fractions are compared by cross-multiplication; the
result is the clamped probability as an exact fraction. -/
def FProb.fmin : FProb → Nat × Nat → Nat × Nat
  | FProb.fin n d, c => if n * c.2 ≤ c.1 * d then (n, d) else c
  | FProb.posInf, c => c
  | FProb.nan, c => c

/-- Modelled from the spec: proptest's probability-to-weight conversion
(an external collaborator, spec sections 4.2 and 6), a monotone map from a
probability to a pair (weight of the probability side, weight of the
complement) that is exact at the endpoints: probability 0 gives a zero
first weight (leaf-only) and probability 1 gives a zero second weight
(branch-only).  Realised by scaling to a 2^32 budget. -/
def float_to_weight (q : Nat × Nat) : Nat × Nat :=
  (q.1 * 4294967296 / q.2, 4294967296 - q.1 * 4294967296 / q.2)

/-- u64::saturating_mul (used at src/recursive.rs line 69): the product,
stalled at the largest representable u64 value on overflow. -/
def saturating_mul (a b : Nat) : Nat := min (a * b) (2 ^ 64 - 1)

/-- The probability-vector loop of src/recursive.rs lines 65-70, with the
running `k2` accumulator as an explicit argument; produces the
probabilities in push order. -/
def probsAux (S bb : Nat) : Nat → Nat → List FProb
  | 0, _ => []
  | d + 1, k2 => fdiv S k2 :: probsAux S bb d (saturating_mul k2 bb)

/-- The branch-probability vector computed on each new_tree call
(src/recursive.rs lines 65-70): k2 starts at expected_branch_size * 2 and
is multiplied by the same quantity, saturating, after each level. -/
def branchProbabilities (depth S B : Nat) : List FProb :=
  probsAux S (B * 2) depth (B * 2)

/-- The accumulator sequence in closed form: k_1 = 2 B and
k_(i+1) = saturating_mul k_i (2 B), as the claims and spec describe it. -/
def kSeq (B : Nat) : Nat → Nat
  | 0 => B * 2
  | i + 1 => saturating_mul (kSeq B i) (B * 2)

/-- One iteration of the while-pop loop of src/recursive.rs lines 72-86:
clamp the popped probability to at most 0.9, convert it to a weight pair
and build the weighted choice between the current approximation (the
non-recursive alternative) and one application of the recursion step to it
(the recursive alternative). -/
def layer (p : FProb) (strat : Strat) : Strat :=
  Strat.oneof (float_to_weight (FProb.fmin p (9, 10))).2
    (float_to_weight (FProb.fmin p (9, 10))).1
    strat (Strat.recurseApp strat)

/-- The strategy actually sampled by Recursive::new_tree for parameters
depth, desired_size and expected_branch_size (src/recursive.rs lines
62-89): the while-pop loop consumes the probability vector from its last
element down to its first, which is a right fold of `layer` over the
vector in push order, starting from the base strategy. -/
def new_tree (depth S B : Nat) : Strat :=
  (branchProbabilities depth S B).foldr layer Strat.base

/-- The data captured by StrategyExt::prop_mutually_recursive (src/lib.rs
lines 164-191) when it builds a `Recursive`: the three numeric parameters,
the clone of the caller's registry contents taken at call time
(`let set = set.inner.clone()`, line 177) and the type id of the generated
type, used to pre-populate the registry handed to the recursion step. -/
structure RecursiveParams where
  depth : Nat
  desired_size : Nat
  expected_branch_size : Nat
  captured : StrategySet Strat
  tid : Nat

/-- StrategyExt::prop_mutually_recursive (src/lib.rs lines 164-191):
capture a clone of the registry contents and the generated type's id and
wrap them, with the numeric parameters, into a `Recursive` strategy.  The
caller's registry is taken by shared reference and never written. -/
def prop_mutually_recursive (D S B : Nat) (set : StrategySet Strat) (tid : Nat) :
    RecursiveParams :=
  ⟨D, S, B, StrategySet.clone set, tid⟩

/-- The registry value handed to the user's branch closure when the
recursion step runs at some layer with current approximation `nested`
(src/lib.rs lines 183-187): the captured contents, updated so that the
generated type's id maps to `nested`. -/
def stepRegistry (r : RecursiveParams) (nested : Strat) : StrategySet Strat :=
  StrategySet.update r.captured r.tid ⟨r.tid, nested⟩

/-- Recursive::new_tree as invoked on the strategy built by
prop_mutually_recursive: the layered strategy for its parameters. -/
def Recursive.new_tree (r : RecursiveParams) : Strat :=
  (branchProbabilities r.depth r.desired_size r.expected_branch_size).foldr layer Strat.base

/-- Every weighted choice in a built strategy gives its non-recursive
(first) alternative a strictly positive weight. -/
def leafWeightsPos : Strat → Prop
  | Strat.base => True
  | Strat.recurseApp s => leafWeightsPos s
  | Strat.oneof wl _ a b => 0 < wl ∧ leafWeightsPos a ∧ leafWeightsPos b

theorem probsAux_length (S bb : Nat) : ∀ (d k : Nat), (probsAux S bb d k).length = d
  | 0, _ => rfl
  | d + 1, k => by simp [probsAux, probsAux_length S bb d]

theorem branchProbabilities_length (D S B : Nat) :
    (branchProbabilities D S B).length = D :=
  probsAux_length S (B * 2) D (B * 2)

theorem vdepthList_le {vs : List Val} {n : Nat} (h : ∀ v ∈ vs, vdepth v ≤ n) :
    vdepthList vs ≤ n := by
  induction vs with
  | nil => simp [vdepthList]
  | cons v vs ih =>
      simp only [vdepthList]
      exact Nat.max_le.mpr ⟨h v (List.mem_cons_self v vs), ih fun x hx => h x (List.mem_cons_of_mem v hx)⟩

/-- Core of the depth bound: a value sampled from the layered strategy
built over a probability vector has recursive-construction depth at most
the vector's length, because each layer wraps the step around the
strictly-shallower previous approximation. -/
theorem samples_foldr_vdepth (ps : List FProb) :
    ∀ v, samples (ps.foldr layer Strat.base) v → vdepth v ≤ ps.length := by
  induction ps with
  | nil =>
      intro v h
      cases h
      simp [vdepth]
  | cons p ps ih =>
      intro v h
      simp only [List.foldr_cons, layer] at h
      cases h with
      | left w1 w2 s1 s2 v hw hs =>
          exact Nat.le_trans (ih v hs) (by simp)
      | right w1 w2 s1 s2 v hw hs =>
          cases hs with
          | step s vs hvs =>
              have hd : vdepthList vs ≤ ps.length :=
                vdepthList_le fun x hx => ih x (hvs x hx)
              simp only [vdepth, List.length_cons]
              omega

/-- C1: for every depth bound D, desired size S, branch factor B, base
strategy and recursion-step function, every value sampled from the
strategy returned by prop_mutually_recursive has recursive-construction
depth at most D (the recursion step is layered at most D times around the
base), for any shape of the recursion-step function. -/
theorem c1_depth_bound (D S B : Nat) (set : StrategySet Strat) (tid : Nat) (v : Val)
    (h : samples (Recursive.new_tree (prop_mutually_recursive D S B set tid)) v) :
    vdepth v ≤ D := by
  have h2 : samples ((branchProbabilities D S B).foldr layer Strat.base) v := h
  have h3 := samples_foldr_vdepth (branchProbabilities D S B) v h2
  rwa [branchProbabilities_length] at h3

/-- Witness for C1 at D = 2, S = 32, B = 1 and a concrete sampled value. -/
theorem c1_depth_bound_witness : vdepth (Val.leaf 0) ≤ 2 :=
  c1_depth_bound 2 32 1 ⟨[]⟩ 0 (Val.leaf 0)
    (samples.left _ _ _ _ _ (by decide) (samples.left _ _ _ _ _ (by decide) (samples.base 0)))

/-- C6: for depth D = 0 and any S, B, base strategy and recursion-step
function, the strategy returned by prop_mutually_recursive is the base
strategy unchanged: its samples are exactly the base strategy's samples
and the recursion-step function is never invoked. -/
theorem c6_depth_zero (S B tid : Nat) (set : StrategySet Strat) :
    Recursive.new_tree (prop_mutually_recursive 0 S B set tid) = Strat.base
    ∧ (∀ v, samples (Recursive.new_tree (prop_mutually_recursive 0 S B set tid)) v
        ↔ samples Strat.base v)
    ∧ countRecurse (Recursive.new_tree (prop_mutually_recursive 0 S B set tid)) = 0 :=
  ⟨rfl, fun _ => Iff.rfl, rfl⟩

/-- The fraction q is at most nine tenths (compared by cross
multiplication). -/
def atMostNineTenths (q : Nat × Nat) : Prop := q.1 * 10 ≤ 9 * q.2

theorem fmin_le_nine_tenths (p : FProb) : atMostNineTenths (FProb.fmin p (9, 10)) := by
  cases p with
  | fin n d =>
      by_cases h : n * 10 ≤ 9 * d
      · simp [FProb.fmin, atMostNineTenths, h]
      · simp [FProb.fmin, atMostNineTenths, h]
  | posInf => simp [FProb.fmin, atMostNineTenths]
  | nan => simp [FProb.fmin, atMostNineTenths]

theorem fmin_fdiv_den_pos (S k : Nat) : 0 < (FProb.fmin (fdiv S k) (9, 10)).2 := by
  by_cases hk : k = 0
  · by_cases hS : S = 0 <;> simp [fdiv, hk, hS, FProb.fmin]
  · by_cases h : S * 10 ≤ 9 * k
    · simpa [fdiv, hk, FProb.fmin, h] using Nat.pos_of_ne_zero hk
    · simp [fdiv, hk, FProb.fmin, h]

/-- Clamping below nine tenths leaves the complementary (non-recursive)
weight strictly positive: the scaled branch weight stays below the full
2^32 budget. -/
theorem leaf_weight_pos {q : Nat × Nat} (h1 : atMostNineTenths q) (h2 : 0 < q.2) :
    0 < (float_to_weight q).2 := by
  have hlt : q.1 < q.2 := by
    have h3 : q.1 * 10 ≤ 9 * q.2 := h1
    omega
  have hm : q.1 * 4294967296 < q.2 * 4294967296 :=
    mul_lt_mul_of_pos_right hlt (by norm_num)
  have hdiv : q.1 * 4294967296 / q.2 < 4294967296 := Nat.div_lt_of_lt_mul hm
  simp only [float_to_weight]
  omega

theorem leaf_weight_pos_fdiv (S k : Nat) :
    0 < (float_to_weight (FProb.fmin (fdiv S k) (9, 10))).2 :=
  leaf_weight_pos (fmin_le_nine_tenths (fdiv S k)) (fmin_fdiv_den_pos S k)

/-- A branch probability of exactly zero converts to a zero branch weight:
the recursive alternative becomes unselectable. -/
theorem branch_weight_zero {k : Nat} (hk : k ≠ 0) :
    (float_to_weight (FProb.fmin (fdiv 0 k) (9, 10))).1 = 0 := by
  simp [fdiv, hk, FProb.fmin, float_to_weight]

/-- The k accumulator in closed form from an arbitrary start. -/
def kIter (bb k : Nat) : Nat → Nat
  | 0 => k
  | i + 1 => saturating_mul (kIter bb k i) bb

theorem kIter_shift (bb k : Nat) : ∀ i, kIter bb k (i + 1) = kIter bb (saturating_mul k bb) i
  | 0 => rfl
  | i + 1 => by
      simp only [kIter]
      rw [← kIter_shift bb k i]
      rfl

theorem probsAux_eq_map (S bb : Nat) :
    ∀ (d k : Nat), probsAux S bb d k = (List.range d).map (fun i => fdiv S (kIter bb k i)) := by
  intro d
  induction d with
  | zero => intro k; rfl
  | succ d ih =>
      intro k
      rw [List.range_succ_eq_map]
      simp only [probsAux, List.map_cons, List.map_map]
      congr 1
      rw [ih (saturating_mul k bb)]
      refine List.map_congr_left ?_
      intro i _
      simp only [Function.comp]
      rw [← kIter_shift bb k i]

theorem kSeq_eq_kIter (B : Nat) : ∀ i, kSeq B i = kIter (B * 2) (B * 2) i
  | 0 => rfl
  | i + 1 => by simp only [kSeq, kIter, kSeq_eq_kIter B i]

/-- The probability vector in closed form: the i-th branch probability is
desired_size divided by the i-th saturated accumulator value. -/
theorem branchProbabilities_eq_map (D S B : Nat) :
    branchProbabilities D S B = (List.range D).map (fun i => fdiv S (kSeq B i)) := by
  rw [branchProbabilities, probsAux_eq_map]
  refine List.map_congr_left ?_
  intro i _
  rw [kSeq_eq_kIter]

theorem kSeq_le_u64 {B : Nat} (hB : B < 4294967296) : ∀ i, kSeq B i ≤ 2 ^ 64 - 1
  | 0 => by
      have h64 : (4294967296 : Nat) * 2 ≤ 2 ^ 64 - 1 := by norm_num
      simp only [kSeq]
      omega
  | i + 1 => by
      simp only [kSeq, saturating_mul]
      exact Nat.min_le_right _ _

theorem kSeq_pos {B : Nat} (hB : 1 ≤ B) : ∀ i, 0 < kSeq B i
  | 0 => by simp only [kSeq]; omega
  | i + 1 => by
      have hkk : 0 < kSeq B i := kSeq_pos hB i
      have hbig : (0 : Nat) < 2 ^ 64 - 1 := by norm_num
      simp only [kSeq, saturating_mul]
      exact lt_min (Nat.mul_pos hkk (by omega)) hbig

/-- If every probability in the vector keeps the non-recursive weight
positive, the whole layered strategy does so at every layer. -/
theorem leafWeightsPos_foldr (ps : List FProb)
    (hw : ∀ p ∈ ps, 0 < (float_to_weight (FProb.fmin p (9, 10))).2) :
    leafWeightsPos (ps.foldr layer Strat.base) := by
  induction ps with
  | nil => trivial
  | cons p ps ih =>
      have hih := ih fun x hx => hw x (List.mem_cons_of_mem p hx)
      simp only [List.foldr_cons, layer, leafWeightsPos]
      exact ⟨hw p (List.mem_cons_self p ps), hih, hih⟩

/-- If every probability in the vector converts to a zero branch weight,
only base values can be sampled from the layered strategy. -/
theorem samples_foldr_leaf (ps : List FProb)
    (hw : ∀ p ∈ ps, (float_to_weight (FProb.fmin p (9, 10))).1 = 0) :
    ∀ v, samples (ps.foldr layer Strat.base) v → ∃ n, v = Val.leaf n := by
  induction ps with
  | nil =>
      intro v h
      cases h with
      | base n => exact ⟨n, rfl⟩
  | cons p ps ih =>
      intro v h
      simp only [List.foldr_cons, layer] at h
      cases h with
      | left w1 w2 s1 s2 v hwz hs =>
          exact ih (fun x hx => hw x (List.mem_cons_of_mem p hx)) v hs
      | right w1 w2 s1 s2 v hwz hs =>
          exact absurd (hw p (List.mem_cons_self p ps)) hwz

/-- C4: on each generation call the branch probabilities are S / k_i with
k_1 = 2 B and k_(i+1) = k_i * 2 B under saturating (never wrapping)
arithmetic; every probability actually used to weight the recursive
alternative is clamped to at most 0.9, so the non-recursive alternative
keeps a strictly positive weight at every layer of the built strategy. -/
theorem c4_branch_probabilities (D S B : Nat) (hB : B < 4294967296) :
    branchProbabilities D S B = (List.range D).map (fun i => fdiv S (kSeq B i))
    ∧ (∀ i, kSeq B i ≤ 2 ^ 64 - 1)
    ∧ (∀ p ∈ branchProbabilities D S B, atMostNineTenths (FProb.fmin p (9, 10)))
    ∧ leafWeightsPos (new_tree D S B) := by
  refine ⟨branchProbabilities_eq_map D S B, kSeq_le_u64 hB, ?_, ?_⟩
  · intro p _
    exact fmin_le_nine_tenths p
  · refine leafWeightsPos_foldr (branchProbabilities D S B) ?_
    intro p hp
    rw [branchProbabilities_eq_map] at hp
    obtain ⟨i, _, rfl⟩ := List.mem_map.mp hp
    exact leaf_weight_pos_fdiv S (kSeq B i)

/-- Witness for C4 at D = 2, S = 32, B = 1. -/
theorem c4_branch_probabilities_witness :
    (1 : Nat) < 4294967296 ∧ leafWeightsPos (new_tree 2 32 1) :=
  ⟨by norm_num, (c4_branch_probabilities 2 32 1 (by norm_num)).2.2.2⟩

theorem probsAux_B0 (S : Nat) : ∀ d, ∀ p ∈ probsAux S 0 d 0, p = fdiv S 0
  | 0, p, hp => absurd hp (List.not_mem_nil p)
  | d + 1, p, hp => by
      have hsat : saturating_mul 0 0 = 0 := by simp [saturating_mul]
      rw [probsAux, hsat] at hp
      rcases List.mem_cons.mp hp with h | h
      · exact h
      · exact probsAux_B0 S d p h

/-- C5 counterexample: with expected branch size B = 0 (here D = 1,
S = 32) the accumulator k2 is zero, the division 32 / 0 yields +inf, the
0.9 clamp maps it to 0.9 (Rust f64 semantics), and the recursive
alternative is selectable: a non-base value is sampled, so the strategy
does not degenerate to base-only generation as the claim states for B = 0. -/
theorem c5_counterexample :
    samples (new_tree 1 32 0) (Val.node [])
    ∧ (∀ n, Val.node [] ≠ Val.leaf n)
    ∧ fdiv 32 0 = FProb.posInf
    ∧ FProb.fmin (fdiv 32 0) (9, 10) = (9, 10)
    ∧ fdiv 0 0 = FProb.nan
    ∧ FProb.fmin (fdiv 0 0) (9, 10) = (9, 10) := by
  refine ⟨?_, ?_, rfl, rfl, rfl, rfl⟩
  · exact samples.right _ _ _ _ _ (by decide)
      (samples.step _ _ (fun v hv => absurd hv (List.not_mem_nil v)))
  · intro n h
    exact Val.noConfusion h

/-- C5 amended: for S = 0 and B at least 1 every branch probability is the
exact zero fraction 0 / k_i and the strategy degenerates to base-only
generation for any D.  For B = 0 the division is by zero, so the computed
probability is +inf (NaN when S = 0 as well); the 0.9 clamp then uses 0.9,
the recursive alternative stays selectable and generation is not
base-only.  No error is raised in either regime: every combination of
nonnegative D, S, B produces a strategy. -/
theorem c5_zero_size_degrade (D B : Nat) (hB : 1 ≤ B) :
    (∀ p ∈ branchProbabilities D 0 B, ∃ k, 0 < k ∧ p = FProb.fin 0 k)
    ∧ (∀ v, samples (new_tree D 0 B) v → ∃ n, v = Val.leaf n)
    ∧ (∀ D2 S, ∀ p ∈ branchProbabilities D2 S 0, FProb.fmin p (9, 10) = (9, 10)) := by
  refine ⟨?_, ?_, ?_⟩
  · intro p hp
    rw [branchProbabilities_eq_map] at hp
    obtain ⟨i, _, rfl⟩ := List.mem_map.mp hp
    have hk : 0 < kSeq B i := kSeq_pos hB i
    exact ⟨kSeq B i, hk, by simp [fdiv, Nat.pos_iff_ne_zero.mp hk]⟩
  · refine samples_foldr_leaf (branchProbabilities D 0 B) ?_
    intro p hp
    rw [branchProbabilities_eq_map] at hp
    obtain ⟨i, _, rfl⟩ := List.mem_map.mp hp
    exact branch_weight_zero (Nat.pos_iff_ne_zero.mp (kSeq_pos hB i))
  · intro D2 S p hp
    have hp0 : p ∈ probsAux S 0 D2 0 := by
      simpa [branchProbabilities] using hp
    rw [probsAux_B0 S D2 p hp0]
    by_cases hS : S = 0 <;> simp [fdiv, hS, FProb.fmin]

/-- Witness for the amended C5 at D = 1, B = 1. -/
theorem c5_zero_size_degrade_witness :
    (1 : Nat) ≤ 1 ∧ (∀ v, samples (new_tree 1 0 1) v → ∃ n, v = Val.leaf n) :=
  ⟨Nat.le_refl 1, (c5_zero_size_degrade 1 1 (Nat.le_refl 1)).2.1⟩

/-- C2: one call to StrategySet::get invokes the builder at most once, and
zero times when an entry for the requested type is already present; after
a get with builder f1, a second get for the same type with any builder f2
never invokes f2 and returns the same strategy the first call returned (a
clone of the stored entry). -/
theorem c2_get_memoizes (α : Type) (s : StrategySet α) (T : Nat)
    (f1 f2 : StrategySet α → StrategySet α × α) :
    (s.get T f1).calls ≤ 1
    ∧ ((s.lookup T).isSome → (s.get T f1).calls = 0)
    ∧ ((s.get T f1).set.get T f2).calls = 0
    ∧ ((s.get T f1).set.get T f2).out = (s.get T f1).out := by
  cases hl : s.lookup T with
  | some d =>
      refine ⟨?_, ?_, ?_, ?_⟩ <;> simp [StrategySet.get, hl]
  | none =>
      have hl2 : (StrategySet.update s T ⟨T, (f1 (StrategySet.clone s)).2⟩).lookup T
          = some ⟨T, (f1 (StrategySet.clone s)).2⟩ := by
        simp [StrategySet.lookup, StrategySet.update, lookupL]
      refine ⟨?_, ?_, ?_, ?_⟩ <;> simp [StrategySet.get, hl, hl2]

/-- Witness for C2 on the empty registry with two distinct builders. -/
theorem c2_get_memoizes_witness :
    ((⟨[]⟩ : StrategySet Nat).get 0 (fun s => (s, 1))).calls ≤ 1
    ∧ (((⟨[]⟩ : StrategySet Nat).lookup 0).isSome →
        ((⟨[]⟩ : StrategySet Nat).get 0 (fun s => (s, 1))).calls = 0)
    ∧ (((⟨[]⟩ : StrategySet Nat).get 0 (fun s => (s, 1))).set.get 0 (fun s => (s, 2))).calls = 0
    ∧ (((⟨[]⟩ : StrategySet Nat).get 0 (fun s => (s, 1))).set.get 0 (fun s => (s, 2))).out
        = ((⟨[]⟩ : StrategySet Nat).get 0 (fun s => (s, 1))).out :=
  c2_get_memoizes Nat ⟨[]⟩ 0 (fun s => (s, 1)) (fun s => (s, 2))

/-- C3: whenever the recursion step built by prop_mutually_recursive runs
with current approximation `nested`, the registry it receives already maps
the generated type's id to `nested`; a nested get for that id therefore
performs zero builder invocations and returns `nested` itself.  Moreover
each layer wraps the step around a strictly shallower approximation. -/
theorem c3_step_registry_prepopulated (set : StrategySet Strat) (tid D S B : Nat)
    (nested : Strat) (f : StrategySet Strat → StrategySet Strat × Strat) :
    (stepRegistry (prop_mutually_recursive D S B set tid) nested).lookup tid
        = some ⟨tid, nested⟩
    ∧ ((stepRegistry (prop_mutually_recursive D S B set tid) nested).get tid f).calls = 0
    ∧ ((stepRegistry (prop_mutually_recursive D S B set tid) nested).get tid f).out
        = some nested
    ∧ (∀ p s, layerDepth s < layerDepth (layer p s)) := by
  have hl : (stepRegistry (prop_mutually_recursive D S B set tid) nested).lookup tid
      = some ⟨tid, nested⟩ := by
    simp [stepRegistry, prop_mutually_recursive, StrategySet.update, StrategySet.clone,
      StrategySet.lookup, lookupL]
  refine ⟨hl, ?_, ?_, ?_⟩
  · simp [StrategySet.get, hl]
  · simp [StrategySet.get, hl]
  · intro p s
    simp only [layer, layerDepth]
    omega

/-- C7: a get on a registry with no entry for the requested type adds
exactly that entry to the caller's registry (every other key reads as
before, whatever the builder did to its snapshot), and the snapshot the
builder receives does not contain the not-yet-inserted entry. -/
theorem c7_get_frame (α : Type) (s : StrategySet α) (T : Nat)
    (f : StrategySet α → StrategySet α × α) (h : s.lookup T = none) :
    (s.get T f).set = s.update T ⟨T, (f s.clone).2⟩
    ∧ (s.get T f).set.lookup T = some ⟨T, (f s.clone).2⟩
    ∧ (∀ U, U ≠ T → (s.get T f).set.lookup U = s.lookup U)
    ∧ s.clone.lookup T = none := by
  have h0 : lookupL s.inner T = none := h
  refine ⟨?_, ?_, ?_, h⟩
  · simp [StrategySet.get, h]
  · simp [StrategySet.get, h, h0, StrategySet.update, StrategySet.lookup, lookupL]
  · intro U hU
    simp [StrategySet.get, h, h0, StrategySet.update, StrategySet.lookup, lookupL, Ne.symm hU]

/-- Witness for C7 on the empty registry. -/
theorem c7_get_frame_witness :
    ((⟨[]⟩ : StrategySet Nat).get 0 (fun s => (s, 7))).set.lookup 0 = some ⟨0, 7⟩ :=
  (c7_get_frame Nat ⟨[]⟩ 0 (fun s => (s, 7)) rfl).2.1

/-- A heap of registry handles, modelling several owners (an original
StrategySet and its clones) each holding an independently mutable
registry value: handle i refers to regs i, and next is the first unused
handle. -/
structure RegHeap (α : Type) where
  regs : Nat → StrategySet α
  next : Nat

/-- The registry value a handle currently refers to. -/
def RegHeap.read {α : Type} (h : RegHeap α) (i : Nat) : StrategySet α := h.regs i

/-- Clone the registry held by handle i (src/lib.rs line 122, the derived
Clone): allocate a fresh handle referring to a clone of that value. -/
def RegHeap.cloneHandle {α : Type} (h : RegHeap α) (i : Nat) : RegHeap α × Nat :=
  (⟨fun j => if j = h.next then StrategySet.clone (h.regs i) else h.regs j, h.next + 1⟩,
   h.next)

/-- Run StrategySet::get against the registry held by handle i, writing
the mutated registry back through that handle only. -/
def RegHeap.getAt {α : Type} (h : RegHeap α) (i T : Nat)
    (f : StrategySet α → StrategySet α × α) : RegHeap α × Option α :=
  (⟨fun j => if j = i then ((h.regs i).get T f).set else h.regs j, h.next⟩,
   ((h.regs i).get T f).out)

/-- C8: cloning a StrategySet yields an independent logical copy: the
clone shows the same entries as the original, a get through the clone's
handle leaves the registry seen through the original's handle unchanged,
and a get through the original's handle leaves the clone's registry
unchanged. -/
theorem c8_clone_independent (α : Type) (h : RegHeap α) (i : Nat) (hi : i < h.next)
    (T U : Nat) (f : StrategySet α → StrategySet α × α) :
    (((h.cloneHandle i).1.read (h.cloneHandle i).2).lookup U = (h.read i).lookup U)
    ∧ ((h.cloneHandle i).1.getAt (h.cloneHandle i).2 T f).1.read i = h.read i
    ∧ ((h.cloneHandle i).1.getAt i T f).1.read (h.cloneHandle i).2
        = (h.cloneHandle i).1.read (h.cloneHandle i).2 := by
  have hne : i ≠ h.next := Nat.ne_of_lt hi
  refine ⟨?_, ?_, ?_⟩ <;>
    simp [RegHeap.cloneHandle, RegHeap.read, RegHeap.getAt, StrategySet.clone, hne, Ne.symm hne]

/-- Witness for C8 with one live handle holding the empty registry. -/
theorem c8_clone_independent_witness :
    ((RegHeap.cloneHandle ⟨fun _ => (⟨[]⟩ : StrategySet Nat), 1⟩ 0).1.read
        (RegHeap.cloneHandle ⟨fun _ => (⟨[]⟩ : StrategySet Nat), 1⟩ 0).2).lookup 5
      = ((⟨fun _ => (⟨[]⟩ : StrategySet Nat), 1⟩ : RegHeap Nat).read 0).lookup 5 :=
  (c8_clone_independent Nat ⟨fun _ => ⟨[]⟩, 1⟩ 0 (by decide) 3 5 (fun s => (s, 9))).1

/-- C9: under the type-safety invariant (every stored entry's erased type
id matches its key, which the Rust type system guarantees at every
insertion site), the checked downcast in StrategySet::get never reaches
the panic branch of the unwrap, and get preserves the invariant; on an
ill-typed registry a mismatching entry makes get abort (modelled by the
none result) rather than return a wrong strategy. -/
theorem c9_downcast_total :
    (∀ (α : Type) (s : StrategySet α) (T : Nat) (f : StrategySet α → StrategySet α × α),
      s.WellTyped → (s.get T f).out.isSome ∧ (s.get T f).set.WellTyped)
    ∧ (∀ (α : Type) (s : StrategySet α) (T : Nat) (f : StrategySet α → StrategySet α × α)
        (d : Dyn α), s.lookup T = some d → d.tid ≠ T → (s.get T f).out = none) := by
  constructor
  · intro α s T f hs
    cases hl : s.lookup T with
    | some d =>
        have htid : d.tid = T := lookup_wellTyped hs hl
        constructor
        · simp [StrategySet.get, hl, htid]
        · simpa [StrategySet.get, hl] using hs
    | none =>
        refine ⟨by simp [StrategySet.get, hl], ?_⟩
        have hset : (s.get T f).set
            = StrategySet.update s T ⟨T, (f (StrategySet.clone s)).2⟩ := by
          simp [StrategySet.get, hl]
        rw [hset]
        intro e he
        rcases List.mem_cons.mp he with he | he
        · rw [he]
        · exact hs e he
  · intro α s T f d hl hne
    simp [StrategySet.get, hl, hne]

/-- Witness for C9: a successful downcast on a well-typed registry and the
abort on an ill-typed one. -/
theorem c9_downcast_total_witness :
    ((⟨[]⟩ : StrategySet Nat).get 0 (fun s => (s, 3))).out.isSome
    ∧ ((⟨[(0, ⟨1, 5⟩)]⟩ : StrategySet Nat).get 0 (fun s => (s, 3))).out = none :=
  ⟨(c9_downcast_total.1 Nat ⟨[]⟩ 0 (fun s => (s, 3)) (fun e he => nomatch he)).1,
   c9_downcast_total.2 Nat ⟨[(0, ⟨1, 5⟩)]⟩ 0 (fun s => (s, 3)) ⟨1, 5⟩ rfl (by decide)⟩

/-- C10: prop_mutually_recursive takes the registry by shared reference
and only clones its contents: the captured contents equal the caller's
registry at call time, the returned strategy is not inserted anywhere, and
an entry added to the caller's registry after the call (here key T2) is
never visible in the registry handed to the recursion step, which is built
from the capture alone. -/
theorem c10_captures_snapshot (set : StrategySet Strat) (tid D S B T2 : Nat)
    (f2 : StrategySet Strat → StrategySet Strat × Strat) (nested : Strat)
    (h1 : set.lookup T2 = none) (h2 : T2 ≠ tid) :
    (prop_mutually_recursive D S B set tid).captured = set
    ∧ (∀ U, (prop_mutually_recursive D S B set tid).captured.lookup U = set.lookup U)
    ∧ ((set.get T2 f2).set.lookup T2).isSome
    ∧ (stepRegistry (prop_mutually_recursive D S B set tid) nested).lookup T2 = none := by
  have h0 : lookupL set.inner T2 = none := h1
  refine ⟨rfl, fun U => rfl, ?_, ?_⟩
  · simp [StrategySet.get, h1, h0, StrategySet.update, StrategySet.lookup, lookupL]
  · simp [stepRegistry, prop_mutually_recursive, StrategySet.update, StrategySet.clone,
      StrategySet.lookup, lookupL, Ne.symm h2, h0]

/-- Witness for C10 on the empty registry with tid 0 and a later entry 1. -/
theorem c10_captures_snapshot_witness :
    (prop_mutually_recursive 2 32 1 ⟨[]⟩ 0).captured = (⟨[]⟩ : StrategySet Strat)
    ∧ (stepRegistry (prop_mutually_recursive 2 32 1 ⟨[]⟩ 0) Strat.base).lookup 1 = none :=
  ⟨(c10_captures_snapshot ⟨[]⟩ 0 2 32 1 1 (fun s => (s, Strat.base)) Strat.base rfl
      (by decide)).1,
   (c10_captures_snapshot ⟨[]⟩ 0 2 32 1 1 (fun s => (s, Strat.base)) Strat.base rfl
      (by decide)).2.2.2⟩
